import Mathlib

/-!
Verification of the retrieval pipeline and vector index of the
AI-Powered-RAG-System repository, against its natural-language
specification.

Shallow embedding conventions:
* Python strings are modelled as `List Char` where index arithmetic
  matters (chunking, cleaning) and as `String` where they are only
  carried around (chunk ids, document ids, assembled context).
* `numpy` float32 vectors are modelled as `List ℤ`: none of the claims
  below depends on the numeric field — only on determinism, ordering and
  structural bookkeeping — and exact integers keep every definition
  computable down to the kernel.
* Fallible operations return `Option`; a Python `while` loop that the
  source does not guarantee to terminate is given an explicit fuel
  parameter, and termination of the source loop is expressed as
  "some fuel suffices".
-/

namespace RAG

/-! ## Vector index: model of `src/services/faiss_service.py` -/

/-- An embedding vector (faiss stores float32 rows; modelled exactly). -/
abbrev Vec := List ℤ

/-- State of a `FAISSService` instance: `self.dimension`, the vectors held
by the `IndexFlatL2` (insertion order), and `self.metadata` (the parallel
chunk-id list).  After `__init__` the index is never `None`, so it is not
modelled as optional. -/
structure FAISSState where
  dimension : Nat
  vectors : List Vec
  metadata : List String
deriving DecidableEq

/-- The two files under `settings.FAISS_DIR`: `document_index.faiss`
(the serialized index, i.e. its vector rows) and `document_metadata.pkl`
(the pickled chunk-id list).  `none` means the file does not exist. -/
structure Disk where
  indexFile : Option (List Vec)
  metadataFile : Option (List String)
deriving DecidableEq

/-- `FAISSService.create_index`: fresh empty `IndexFlatL2` and metadata. -/
def create_index (dim : Nat) : FAISSState :=
  { dimension := dim, vectors := [], metadata := [] }

/-- `FAISSService.add_vectors`: `self.index.add(embeddings)` appends the
rows in order; `self.metadata.extend(chunk_ids)` appends the ids. -/
def add_vectors (s : FAISSState) (embs : List Vec) (ids : List String) : FAISSState :=
  { s with vectors := s.vectors ++ embs, metadata := s.metadata ++ ids }

/-- Squared L2 distance used by `IndexFlatL2`. -/
def sqDist (q v : Vec) : ℤ :=
  ((q.zip v).map (fun p => (p.1 - p.2) * (p.1 - p.2))).sum

/-- Comparison for ranking (distance ascending, ties by vector position). -/
def distRel (a b : ℤ × Nat) : Prop :=
  a.1 < b.1 ∨ (a.1 = b.1 ∧ a.2 ≤ b.2)

instance : DecidableRel distRel := fun a b =>
  inferInstanceAs (Decidable (_ ∨ _))

/-- The ranked `(distance, position)` pairs the index search produces:
exhaustive scan, sorted ascending by distance, top `k` kept. -/
def searchPairs (s : FAISSState) (q : Vec) (k : Nat) : List (ℤ × Nat) :=
  ((s.vectors.enum.map (fun p => (sqDist q p.2, p.1))).insertionSort distRel).take k

/-- `FAISSService.search`: returns `([], [])` when the index is empty,
otherwise clamps `k = min(k, self.index.ntotal)`, searches, and keeps
`self.metadata[idx]` for each returned position `idx < len(self.metadata)`
(the list-comprehension guard in line 96 of the source). -/
def search (s : FAISSState) (q : Vec) (k : Nat) : List ℤ × List String :=
  if s.vectors.length = 0 then ([], [])
  else
    let kc := min k s.vectors.length
    let pairs := searchPairs s q kc
    (pairs.map (fun p => p.1),
     pairs.filterMap (fun p =>
       if h : p.2 < s.metadata.length then some (s.metadata.get ⟨p.2, h⟩) else none))

/-- `FAISSService.save_index`: writes both files from the current state. -/
def save_index (s : FAISSState) (_d : Disk) : Disk :=
  { indexFile := some s.vectors, metadataFile := some s.metadata }

/-- `FAISSService.load_index`: if both files exist, both are read back;
otherwise (or on a read error) `create_index` is called. -/
def load_index (dim : Nat) (d : Disk) : FAISSState :=
  match d.indexFile, d.metadataFile with
  | some vecs, some ids => { dimension := dim, vectors := vecs, metadata := ids }
  | _, _ => create_index dim

/-- `FAISSService.reset_index`: `create_index()` then `save_index()`. -/
def reset_index (s : FAISSState) (d : Disk) : FAISSState × Disk :=
  let s' := create_index s.dimension
  (s', save_index s' d)

/-- `FAISSService.__init__`: load if the index file exists, else create. -/
def initService (dim : Nat) (d : Disk) : FAISSState :=
  if d.indexFile.isSome then load_index dim d else create_index dim

/-- Operations a client can perform on the service (those named by the
parallel-array-invariant claim, plus `save_index`, which only touches
the disk). -/
inductive FOp where
  | add (embs : List Vec) (ids : List String)
  | load
  | reset
  | create
  | save

/-- One step of the service: how each method transforms (state, disk). -/
def applyOp : FAISSState × Disk → FOp → FAISSState × Disk
  | (s, d), .add embs ids => (add_vectors s embs ids, d)
  | (s, d), .load => (load_index s.dimension d, d)
  | (s, d), .reset => reset_index s d
  | (s, d), .create => (create_index s.dimension, d)
  | (s, d), .save => (s, save_index s d)

/-- Run a sequence of service operations. -/
def runOps (p : FAISSState × Disk) (ops : List FOp) : FAISSState × Disk :=
  ops.foldl applyOp p

/-- The parallel-array invariant of the in-memory state. -/
def stateWF (s : FAISSState) : Prop :=
  s.vectors.length = s.metadata.length

/-- The corresponding invariant of the persisted files. -/
def diskWF (d : Disk) : Prop :=
  ∀ vecs ids, d.indexFile = some vecs → d.metadataFile = some ids →
    vecs.length = ids.length

/-- An operation is well-formed when an `add` carries equal-length batches. -/
def opWF : FOp → Prop
  | .add embs ids => embs.length = ids.length
  | _ => True

instance : DecidablePred stateWF := fun s => inferInstanceAs (Decidable (_ = _))

/-! ## Text normalizer: model of `src/utils/cleaning.py`

Python `str` is modelled as `List Char`.  The ASCII whitespace class
below is the set Python's `\s`, `str.split()` and `str.strip()` agree on
for ASCII input. -/

/-- Python whitespace (ASCII): space, tab, newline, CR, vertical tab,
form feed. -/
def isPyWs (c : Char) : Bool :=
  c = ' ' || c = '\t' || c = '\n' || c = '\r' || c = '\x0b' || c = '\x0c'

/-- `re.sub(r'\s+', ' ', text)`: every maximal whitespace run becomes one
space. -/
def collapseWs : List Char → List Char
  | [] => []
  | c :: rest =>
    if isPyWs c then ' ' :: collapseWs (rest.dropWhile isPyWs)
    else c :: collapseWs rest
termination_by l => l.length
decreasing_by
  · simpa using Nat.lt_succ_of_le ((List.dropWhile_sublist isPyWs).length_le)
  · simp

/-- The control-character class removed by
`re.sub(r'[\x00-\x08\x0b-\x0c\x0e-\x1f\x7f-\x9f]', '', text)`. -/
def isCtrl (c : Char) : Bool :=
  (c.toNat ≤ 0x08) || (0x0b ≤ c.toNat && c.toNat ≤ 0x0c) ||
  (0x0e ≤ c.toNat && c.toNat ≤ 0x1f) || (0x7f ≤ c.toNat && c.toNat ≤ 0x9f)

/-- Python `str.replace(old, new)`: left-to-right, non-overlapping.  (For
an empty `old` Python would insert `new` between characters; the sources
only call it with non-empty literals, and this model leaves the string
unchanged in that unused case.) -/
def pyReplace (pat repl : List Char) : List Char → List Char
  | [] => []
  | c :: rest =>
    if pat ≠ [] ∧ pat.isPrefixOf (c :: rest) then
      repl ++ pyReplace pat repl ((c :: rest).drop pat.length)
    else c :: pyReplace pat repl rest
termination_by s => s.length
decreasing_by
  · rename_i h
    have hlen : 1 ≤ pat.length := by
      cases pat with
      | nil => exact absurd rfl h.1
      | cons x xs => simp
    simp only [List.length_drop, List.length_cons]
    omega
  · simp

/-- The sentence-punctuation class of `re.sub(r'([.!?]){2,}', r'\1', ·)`. -/
def isSentPunct (c : Char) : Bool :=
  c = '.' || c = '!' || c = '?'

/-- `re.sub(r'([.!?]){2,}', r'\1', text)`: a maximal run of two or more
characters from `[.!?]` is replaced by the last character of the run
(the last capture of the repeated group); a lone such character stays. -/
def collapsePunct : List Char → List Char
  | [] => []
  | c :: rest =>
    if isSentPunct c then
      (if rest.takeWhile isSentPunct = [] then [c]
       else [(rest.takeWhile isSentPunct).getLastD c]) ++
        collapsePunct (rest.dropWhile isSentPunct)
    else c :: collapsePunct rest
termination_by l => l.length
decreasing_by
  · simpa using Nat.lt_succ_of_le ((List.dropWhile_sublist isSentPunct).length_le)
  · simp

/-- Python `str.strip()` (no argument): trim whitespace at both ends. -/
def pyStrip (s : List Char) : List Char :=
  ((s.dropWhile isPyWs).reverse.dropWhile isPyWs).reverse

/-- Python `str.split()` (no argument): split on whitespace runs,
discarding empty fields. -/
def pySplitWs : List Char → List (List Char)
  | [] => []
  | c :: rest =>
    if isPyWs c then pySplitWs rest
    else (c :: rest.takeWhile (fun x => !isPyWs x)) ::
      pySplitWs (rest.dropWhile (fun x => !isPyWs x))
termination_by l => l.length
decreasing_by
  · simp
  · simpa using Nat.lt_succ_of_le ((List.dropWhile_sublist _).length_le)

/-- The first literal of line 29 of `cleaning.py`.  In the source the
three consecutive apostrophes open a triple-quoted Python string, so the
statement parses as one `replace` call whose `old` argument is the
fifteen-character literal between the triple quotes, and whose `new`
argument is a single apostrophe; the "second" replace of the line is
swallowed into that literal. -/
def quotePat : List Char :=
  [',', ' ', '"', '\'', '"', ')', '.', 'r', 'e', 'p', 'l', 'a', 'c', 'e', '(']

/-- `clean_text`: empty in, empty out; otherwise collapse whitespace,
drop control characters, apply the two (identity) `"`-replaces and the
two line-29 replaces, collapse repeated punctuation, and strip. -/
def clean_text (text : List Char) : List Char :=
  if text = [] then []
  else
    pyStrip (collapsePunct
      (pyReplace quotePat ['\''] (pyReplace quotePat ['\'']
        (pyReplace ['"'] ['"'] (pyReplace ['"'] ['"']
          ((collapseWs text).filter (fun c => !isCtrl c)))))))

/-- `extract_meaningful_text`: cleans, then rejects when the cleaned
length is below `min_length` (default 50 at the call sites) or the
whitespace-split word count is below 5; otherwise returns the cleaned
text. -/
def extract_meaningful_text (text : List Char) (min_length : Nat) :
    Option (List Char) :=
  let cleaned := clean_text text
  if cleaned.length < min_length then none
  else if (pySplitWs cleaned).length < 5 then none
  else some cleaned

/-! ## Text chunker: model of `chunk_text` in `src/utils/chunking.py` -/

/-- Python index normalization for slice and `rfind` bounds: a negative
index counts from the end (clamped at 0), a positive one is clamped at
the length. -/
def normIdx (n : Nat) (i : Int) : Nat :=
  if i < 0 then ((n : Int) + i).toNat else min i.toNat n

/-- Python `text[a:b]`. -/
def pySlice (s : List Char) (a b : Int) : List Char :=
  (s.take (normIdx s.length b)).drop (normIdx s.length a)

/-- Python `text.rfind(ch, lo, hi)` over already-normalized bounds: the
largest `i` with `lo ≤ i < min hi len` and `s[i] = ch`, else `-1`. -/
def pyRfindN (s : List Char) (ch : Char) (lo hi : Nat) : Int :=
  let cands : List Nat := (List.range (min hi s.length)).filter
    (fun i => decide (lo ≤ i) && (s.getD i ' ' == ch))
  cands.foldl (fun acc i => max acc (i : Int)) (-1)

/-- Python `text.rfind(ch, lo, hi)` with Python's index normalization. -/
def pyRfind (s : List Char) (ch : Char) (lo hi : Int) : Int :=
  pyRfindN s ch (normIdx s.length lo) (normIdx s.length hi)

/-- The chunk end of one `chunk_text` iteration: nominally
`start + chunk_size`, snapped back to just after the last `'.'` or
newline within the final 100 characters of the window whenever that
boundary lies strictly after `start` (lines 36-44 of the source). -/
def chunkEnd (text : List Char) (chunk_size : Nat) (start : Int) : Int :=
  let e0 : Int := start + chunk_size
  if e0 < (text.length : Int) then
    let search_start : Int := max (e0 - 100) start
    let last_boundary : Int :=
      max (pyRfind text '.' search_start e0) (pyRfind text '\n' search_start e0)
    if last_boundary > start then last_boundary + 1 else e0
  else e0

/-- The next cursor position: retreat by `overlap` unless the window
reached end-of-text (line 52 of the source). -/
def nextStart (text : List Char) (chunk_size overlap : Nat) (start : Int) : Int :=
  if chunkEnd text chunk_size start < (text.length : Int) then
    chunkEnd text chunk_size start - overlap
  else chunkEnd text chunk_size start

/-- The `while start < len(text)` loop of `chunk_text`, with explicit
fuel: the source does not guarantee the loop terminates (see the C5
counterexample), and `none` means the fuel ran out. -/
def chunkLoop (text : List Char) (chunk_size overlap : Nat) :
    Nat → Int → List (List Char) → Option (List (List Char))
  | 0, _, _ => none
  | fuel + 1, start, acc =>
    if start < (text.length : Int) then
      let e := chunkEnd text chunk_size start
      let chunk := pyStrip (pySlice text start e)
      chunkLoop text chunk_size overlap fuel
        (nextStart text chunk_size overlap start)
        (if chunk = [] then acc else acc ++ [chunk])
    else some acc

/-- `chunk_text`: empty in, empty out; otherwise run the loop from
cursor 0 with fuel `len(text) + 1` (enough whenever every iteration
advances the cursor). -/
def chunk_text (text : List Char) (chunk_size overlap : Nat) :
    Option (List (List Char)) :=
  if text = [] then some []
  else chunkLoop text chunk_size overlap (text.length + 1) 0 []

/-- Termination of the source loop on a given input: some fuel suffices. -/
def chunkTerminates (text : List Char) (chunk_size overlap : Nat) : Prop :=
  ∃ fuel, (chunkLoop text chunk_size overlap fuel 0 []).isSome = true

/-- Instrumented twin of `chunkLoop`, recording the raw (unstripped)
window of every iteration. -/
def windowLoop (text : List Char) (chunk_size overlap : Nat) :
    Nat → Int → List (List Char) → Option (List (List Char))
  | 0, _, _ => none
  | fuel + 1, start, acc =>
    if start < (text.length : Int) then
      windowLoop text chunk_size overlap fuel
        (nextStart text chunk_size overlap start)
        (acc ++ [pySlice text start (chunkEnd text chunk_size start)])
    else some acc

/-- Concatenation of windows ignoring the `overlap`-character region that
each window after the first shares with its predecessor. -/
def overlapJoin (overlap : Nat) : List (List Char) → List Char
  | [] => []
  | w :: ws => w ++ (ws.map (fun x => x.drop overlap)).flatten

/-! ## QA agent: model of `src/agents/qa_agent.py`

`construct_context`, the source ordering of chunks, and the
`answer_question` pipeline.  The external collaborators (embedding
service, database, completion service) are parameters, as is the
iteration order of Python's `set` (used by `list(set(...))` on line
220 of the source), which CPython leaves unspecified for strings
(hash randomization); a theorem constrains it only to produce a
duplicate-free list with the same members. -/

/-- A chunk record as fetched by `get_chunk_contents`. -/
structure ChunkRec where
  chunk_id : String
  document_id : String
  content : String
  chunk_index : Nat
deriving DecidableEq

/-- The Python sort key `(x["document_id"], x["chunk_index"])` compared as
a tuple: strings lexicographically by code point — the comparison of the
underlying character lists — then the index. -/
def keyRel (a b : ChunkRec) : Prop :=
  a.document_id.data < b.document_id.data ∨
    (a.document_id = b.document_id ∧ a.chunk_index ≤ b.chunk_index)

instance : DecidableRel keyRel := fun a b =>
  inferInstanceAs (Decidable (_ ∨ _))

/-- `sorted(chunks, key=...)`: Python's sort is stable; the model uses a
stable sort (insertion sort), which produces the same list. -/
def sortChunks (chunks : List ChunkRec) : List ChunkRec :=
  chunks.insertionSort keyRel

/-- The source-boundary marker `"\n---\n"` of `construct_context`. -/
def sourceSep : String := "\n---\n"

/-- The per-document header `"[Source]\n"` of `construct_context`. -/
def sourceHeader : String := "[Source]\n"

/-- The `context_parts` list built by the loop of `construct_context`,
with `cur` playing the role of `current_doc` (initially `None`). -/
def contextParts : Option String → List ChunkRec → List String
  | _, [] => []
  | cur, c :: rest =>
    if cur = some c.document_id then
      c.content :: "\n\n" :: contextParts (some c.document_id) rest
    else
      (if cur = none then [] else [sourceSep]) ++
        sourceHeader :: c.content :: "\n\n" :: contextParts (some c.document_id) rest

/-- `QAAgent.construct_context`: empty list short-circuits to `""`;
otherwise sort, build the parts, join and strip. -/
def construct_context (chunks : List ChunkRec) : String :=
  if chunks = [] then ""
  else (String.join (contextParts none (sortChunks chunks))).trim

/-- The document id of the first chunk of a group. -/
def headDoc (g : List ChunkRec) : Option String :=
  g.head?.map (fun c => c.document_id)

/-- Maximal runs of adjacent chunks sharing a document id. -/
def groupRuns : List ChunkRec → List (List ChunkRec)
  | [] => []
  | c :: rest =>
    match groupRuns rest with
    | [] => [[c]]
    | g :: gs =>
      if headDoc g = some c.document_id then (c :: g) :: gs
      else [c] :: g :: gs

/-- The parts contributed by the chunks of one group, header excluded. -/
def groupTail (g : List ChunkRec) : List String :=
  (g.map (fun c => [c.content, "\n\n"])).flatten

/-- The parts contributed by one group: its header, then its contents. -/
def groupParts (g : List ChunkRec) : List String :=
  sourceHeader :: groupTail g

/-- The parts of a group list: no marker before the first group, exactly
one `sourceSep` marker between consecutive groups. -/
def groupsParts : List (List ChunkRec) → List String
  | [] => []
  | g :: gs => groupParts g ++ (gs.map (fun h => sourceSep :: groupParts h)).flatten

/-- Response dictionary of `QAAgent.answer_question`.  Keys absent from a
given Python branch are modelled as `none` / `[]` / `0`. -/
structure QAResponse where
  success : Bool
  answer : String
  sources : List String
  num_sources : Nat
  num_chunks_used : Option Nat
  error : Option String
deriving DecidableEq

/-- Canned reply of the zero-retrieval branch. -/
def noInfoAnswer : String :=
  "I couldn't find any relevant information in the uploaded documents to answer your question."

/-- Canned reply of the all-lookups-missed branch. -/
def noContentAnswer : String :=
  "I found relevant chunks but couldn't retrieve their content. Please try again."

/-- Canned reply of `generate_answer` when the completion service fails. -/
def apologyAnswer : String :=
  "I apologize, but I encountered an error while generating the answer."

/-- A model of `list(set(xs))` is admissible when it enumerates exactly
the distinct members of `xs`, each once, in some order. -/
def admissibleSetOrder (f : List String → List String) : Prop :=
  ∀ xs, (f xs).Nodup ∧ ∀ a, a ∈ f xs ↔ a ∈ xs

/-- `QAAgent.answer_question`, with the collaborators as parameters:
`setOrder` models `list(set(...))`; `embedQ` the outcome of
`embed_question` (an exception there reaches the outer handler);
`s` the FAISS service state and `k` `settings.TOP_K_RESULTS`;
`db` the per-id chunk lookup of `get_chunk_contents` (misses skipped,
order kept); `llm` the completion outcome (`none` yields the apology). -/
def answer_question (setOrder : List String → List String)
    (embedQ : Option Vec) (s : FAISSState) (k : Nat)
    (db : String → Option ChunkRec) (llm : Option String) : QAResponse :=
  match embedQ with
  | none =>
    { success := false, answer := "", sources := [], num_sources := 0,
      num_chunks_used := none, error := some "QA error" }
  | some q =>
    let chunk_ids := (search s q k).2
    if chunk_ids = [] then
      { success := true, answer := noInfoAnswer, sources := [],
        num_sources := 0, num_chunks_used := none, error := none }
    else
      let chunks := chunk_ids.filterMap db
      if chunks = [] then
        { success := true, answer := noContentAnswer, sources := [],
          num_sources := 0, num_chunks_used := none, error := none }
      else
        let answer := match llm with
          | some a => a
          | none => apologyAnswer
        let source_docs := setOrder (chunks.map (fun c => c.document_id))
        { success := true, answer := answer, sources := source_docs,
          num_sources := source_docs.length,
          num_chunks_used := some chunks.length, error := none }

instance : IsTrans ChunkRec keyRel where
  trans a b c h1 h2 := by
    rcases h1 with h1 | ⟨h1, h1'⟩ <;> rcases h2 with h2 | ⟨h2, h2'⟩
    · exact Or.inl (lt_trans h1 h2)
    · exact Or.inl (h2 ▸ h1)
    · exact Or.inl (h1 ▸ h2)
    · exact Or.inr ⟨h1.trans h2, le_trans h1' h2'⟩

instance : IsTotal ChunkRec keyRel where
  total a b := by
    rcases lt_trichotomy a.document_id.data b.document_id.data with h | h | h
    · exact Or.inl (Or.inl h)
    · have hs := String.ext h
      rcases Nat.le_total a.chunk_index b.chunk_index with h' | h'
      · exact Or.inl (Or.inr ⟨hs, h'⟩)
      · exact Or.inr (Or.inr ⟨hs.symm, h'⟩)
    · exact Or.inr (Or.inl h)

/-- Continuation parts of the loop once `current_doc = some d`. -/
def contParts (d : String) : List (List ChunkRec) → List String
  | [] => []
  | g :: gs =>
    (if headDoc g = some d then groupTail g else sourceSep :: groupParts g) ++
      (gs.map (fun h => sourceSep :: groupParts h)).flatten

/-- The spec's description of the `sources` field, stated in its own
words for comparison with the code: the distinct document ids of the
contributing chunks, ordered by first appearance in the
`(document_id, chunk_index)`-sorted order used for context assembly. -/
def specSourcesOrder (chunks : List ChunkRec) : List String :=
  ((sortChunks chunks).map (fun c => c.document_id)).dedup

/-- A concrete metadata store for the C8/C10 instances: chunk `cA1` is
the second chunk of `docA`, chunk `cB0` the first chunk of `docB`. -/
def dbCex : String → Option ChunkRec := fun id =>
  if id = "cA1" then some ⟨"cA1", "docA", "contentA", 1⟩
  else if id = "cB0" then some ⟨"cB0", "docB", "contentB", 0⟩
  else none

/-! ## Theorems -/

theorem stateWF_create (dim : Nat) : stateWF (create_index dim) := rfl

theorem stateWF_add {s : FAISSState} {embs : List Vec} {ids : List String}
    (hs : stateWF s) (h : embs.length = ids.length) :
    stateWF (add_vectors s embs ids) := by
  unfold stateWF add_vectors at *
  simp [hs, h]

theorem stateWF_load {dim : Nat} {d : Disk} (hd : diskWF d) :
    stateWF (load_index dim d) := by
  unfold load_index
  cases hi : d.indexFile with
  | none => exact stateWF_create dim
  | some vecs =>
    cases hm : d.metadataFile with
    | none => exact stateWF_create dim
    | some ids => exact hd vecs ids hi hm

theorem diskWF_save {s : FAISSState} (d : Disk) (hs : stateWF s) :
    diskWF (save_index s d) := by
  intro vecs ids hv hm
  simp only [save_index, Option.some.injEq] at hv hm
  rw [← hv, ← hm]
  exact hs

theorem stateWF_init {dim : Nat} {d : Disk} (hd : diskWF d) :
    stateWF (initService dim d) := by
  unfold initService
  by_cases h : d.indexFile.isSome
  · simpa [h] using @stateWF_load dim d hd
  · simpa [h] using stateWF_create dim

theorem wf_applyOp {p : FAISSState × Disk} {op : FOp}
    (hs : stateWF p.1) (hd : diskWF p.2) (hop : opWF op) :
    stateWF (applyOp p op).1 ∧ diskWF (applyOp p op).2 := by
  obtain ⟨s, d⟩ := p
  cases op with
  | add embs ids => exact ⟨stateWF_add hs hop, hd⟩
  | load => exact ⟨stateWF_load hd, hd⟩
  | reset => exact ⟨stateWF_create _, diskWF_save d (stateWF_create _)⟩
  | create => exact ⟨stateWF_create _, hd⟩
  | save => exact ⟨hs, diskWF_save d hs⟩

theorem wf_runOps {ops : List FOp} {p : FAISSState × Disk}
    (hs : stateWF p.1) (hd : diskWF p.2) (hops : ∀ op ∈ ops, opWF op) :
    stateWF (runOps p ops).1 ∧ diskWF (runOps p ops).2 := by
  induction ops generalizing p with
  | nil => exact ⟨hs, hd⟩
  | cons op rest ih =>
    have h1 := wf_applyOp hs hd (hops op (List.mem_cons_self op rest))
    exact ih h1.1 h1.2 (fun o ho => hops o (List.mem_cons_of_mem op ho))

/-- **C1.** The parallel-array invariant: starting from construction over a
well-formed disk, any sequence of `add_vectors` (equal-length batches),
`load_index`, `reset_index`, `create_index` and `save_index` operations
keeps `len(vectors) = len(metadata)` (and the persisted files matching),
and each `add_vectors` places the `i`-th vector of the batch and the
`i`-th chunk id of the batch at the same position of the two sequences. -/
theorem C1_parallel_array_invariant (dim : Nat) (d : Disk) (ops : List FOp)
    (hd : diskWF d) (hops : ∀ op ∈ ops, opWF op) :
    (stateWF (runOps (initService dim d, d) ops).1 ∧
      diskWF (runOps (initService dim d, d) ops).2) ∧
    (∀ (s : FAISSState) (embs : List Vec) (ids : List String) (i : Nat),
      (add_vectors s embs ids).vectors.get? (s.vectors.length + i) = embs.get? i ∧
      (add_vectors s embs ids).metadata.get? (s.metadata.length + i) = ids.get? i) := by
  refine ⟨wf_runOps (stateWF_init hd) hd hops, ?_⟩
  intro s embs ids i
  constructor
  · simp [add_vectors, List.getElem?_append_right, Nat.le_add_right]
  · simp [add_vectors, List.getElem?_append_right, Nat.le_add_right]

/-- Witness for C1 at a concrete run: one add of two vectors, a save, a
reset, another add, a load. -/
theorem C1_parallel_array_invariant_witness :
    (stateWF (runOps (initService 2 ⟨none, none⟩,
        (⟨none, none⟩ : Disk))
        [FOp.add [[1, 0], [0, 1]] ["c0", "c1"], FOp.save, FOp.reset,
         FOp.add [[2, 2]] ["c2"], FOp.load]).1 ∧
      diskWF (runOps (initService 2 ⟨none, none⟩, (⟨none, none⟩ : Disk))
        [FOp.add [[1, 0], [0, 1]] ["c0", "c1"], FOp.save, FOp.reset,
         FOp.add [[2, 2]] ["c2"], FOp.load]).2) ∧
    (∀ (s : FAISSState) (embs : List Vec) (ids : List String) (i : Nat),
      (add_vectors s embs ids).vectors.get? (s.vectors.length + i) = embs.get? i ∧
      (add_vectors s embs ids).metadata.get? (s.metadata.length + i) = ids.get? i) :=
  C1_parallel_array_invariant 2 ⟨none, none⟩
    [FOp.add [[1, 0], [0, 1]] ["c0", "c1"], FOp.save, FOp.reset,
     FOp.add [[2, 2]] ["c2"], FOp.load]
    (fun _ _ h => by simp at h)
    (by intro op hop; fin_cases hop <;> simp [opWF])

/-- **C2.** `search` on an empty index returns the empty result pair (and,
being a total function here, raises nothing); on a non-empty index the
requested `k` is clamped to the vector count: exactly `min k n` distances
and at most `min k n` chunk ids come back. -/
theorem C2_search_empty_and_clamped (s : FAISSState) (q : Vec) (k : Nat) :
    (s.vectors = [] → search s q k = ([], [])) ∧
    (s.vectors ≠ [] →
      (search s q k).1.length = min k s.vectors.length ∧
      (search s q k).2.length ≤ min k s.vectors.length) := by
  constructor
  · intro h
    simp [search, h]
  · intro h
    have hn : s.vectors.length ≠ 0 := by simpa using fun hl => h (List.length_eq_zero.mp hl)
    have hpairs : (searchPairs s q (min k s.vectors.length)).length
        = min k s.vectors.length := by
      unfold searchPairs
      rw [List.length_take]
      have hperm := List.perm_insertionSort distRel
        (s.vectors.enum.map (fun p => (sqDist q p.2, p.1)))
      rw [hperm.length_eq]
      simp [Nat.min_le_right, Nat.min_eq_left]
    constructor
    · simp only [search, if_neg hn]
      simpa using hpairs
    · simp only [search, if_neg hn]
      calc ((searchPairs s q (min k s.vectors.length)).filterMap _).length
          ≤ (searchPairs s q (min k s.vectors.length)).length :=
            List.length_filterMap_le _ _
        _ = min k s.vectors.length := hpairs

/-- Witness for C2: a one-vector index and the empty index, `k = 3`. -/
theorem C2_search_empty_and_clamped_witness :
    search ⟨2, [], []⟩ [1, 1] 3 = ([], []) ∧
    (search ⟨2, [[1, 0]], ["c0"]⟩ [1, 1] 3).1.length = min 3 1 ∧
    (search ⟨2, [[1, 0]], ["c0"]⟩ [1, 1] 3).2.length ≤ min 3 1 :=
  ⟨(C2_search_empty_and_clamped ⟨2, [], []⟩ [1, 1] 3).1 rfl,
   (C2_search_empty_and_clamped ⟨2, [[1, 0]], ["c0"]⟩ [1, 1] 3).2 (by simp)⟩

/-- **C3.** Save/load round-trip: saving and then constructing a fresh
service over the resulting disk reconstructs the state exactly, so every
search result (distances and chunk ids) is identical before and after. -/
theorem C3_save_load_roundtrip (s : FAISSState) (d : Disk) (q : Vec) (k : Nat) :
    initService s.dimension (save_index s d) = s ∧
    search (initService s.dimension (save_index s d)) q k = search s q k := by
  have h : initService s.dimension (save_index s d) = s := by
    cases s
    rfl
  exact ⟨h, by rw [h]⟩

/-- **C9.** The normalizer returns `none` exactly when the cleaned text is
shorter than the minimum character threshold or has fewer than five
whitespace-separated words, and otherwise returns the cleaned text; being
a total function of its input, it has no other failure mode.  Stated for
every threshold, hence in particular for the default 50. -/
theorem C9_normalizer_rejection (text : List Char) (min_length : Nat) :
    extract_meaningful_text text min_length =
      if (clean_text text).length < min_length ∨
          (pySplitWs (clean_text text)).length < 5
      then none else some (clean_text text) := by
  unfold extract_meaningful_text
  by_cases h1 : (clean_text text).length < min_length
  · simp [h1]
  · by_cases h2 : (pySplitWs (clean_text text)).length < 5 <;> simp [h1, h2]

theorem chunkLoop_succ (text : List Char) (chunk_size overlap fuel : Nat)
    (start : Int) (acc : List (List Char)) :
    chunkLoop text chunk_size overlap (fuel + 1) start acc =
      if start < (text.length : Int) then
        chunkLoop text chunk_size overlap fuel
          (nextStart text chunk_size overlap start)
          (if pyStrip (pySlice text start (chunkEnd text chunk_size start)) = []
           then acc
           else acc ++ [pyStrip (pySlice text start (chunkEnd text chunk_size start))])
      else some acc := rfl

theorem windowLoop_succ (text : List Char) (chunk_size overlap fuel : Nat)
    (start : Int) (acc : List (List Char)) :
    windowLoop text chunk_size overlap (fuel + 1) start acc =
      if start < (text.length : Int) then
        windowLoop text chunk_size overlap fuel
          (nextStart text chunk_size overlap start)
          (acc ++ [pySlice text start (chunkEnd text chunk_size start)])
      else some acc := rfl

theorem foldlMax_eq_or_mem (L : List Nat) (a : Int) :
    L.foldl (fun acc i => max acc (i : Int)) a = a ∨
    ∃ i ∈ L, L.foldl (fun acc i => max acc (i : Int)) a = (i : Int) := by
  induction L generalizing a with
  | nil => exact Or.inl rfl
  | cons j L ih =>
    rcases ih (max a (j : Int)) with h | ⟨i, hi, h⟩
    · rcases max_choice a (j : Int) with hm | hm
      · exact Or.inl (by simpa [hm] using h)
      · exact Or.inr ⟨j, List.mem_cons_self _ _, by simpa [hm] using h⟩
    · exact Or.inr ⟨i, List.mem_cons_of_mem _ hi, by simpa using h⟩

theorem pyRfindN_bounds (s : List Char) (ch : Char) (lo hi : Nat) :
    pyRfindN s ch lo hi = -1 ∨
    ∃ i : Nat, pyRfindN s ch lo hi = (i : Int) ∧ lo ≤ i ∧ i < hi ∧
      i < s.length := by
  simp only [pyRfindN]
  rcases foldlMax_eq_or_mem ((List.range (min hi s.length)).filter
      (fun i => decide (lo ≤ i) && (s.getD i ' ' == ch))) (-1) with h | ⟨i, hi', h⟩
  · exact Or.inl h
  · right
    refine ⟨i, h, ?_⟩
    obtain ⟨hrange, hpred⟩ := List.mem_filter.mp hi'
    have hi2 := List.mem_range.mp hrange
    simp only [Bool.and_eq_true, decide_eq_true_eq, beq_iff_eq] at hpred
    exact ⟨hpred.1, lt_of_lt_of_le hi2 (min_le_left _ _),
      lt_of_lt_of_le hi2 (min_le_right _ _)⟩

theorem pyRfindN_not_mem {s : List Char} {ch : Char} (h : ch ∉ s)
    (lo hi : Nat) : pyRfindN s ch lo hi = -1 := by
  have hfil : (List.range (min hi s.length)).filter
      (fun i => decide (lo ≤ i) && (s.getD i ' ' == ch)) = [] := by
    rw [List.filter_eq_nil]
    intro i hi'
    have hlen : i < s.length :=
      lt_of_lt_of_le (List.mem_range.mp hi') (min_le_right _ _)
    simp only [Bool.and_eq_true, decide_eq_true_eq, beq_iff_eq, not_and]
    intro _ hgd
    exact h (hgd ▸ (List.getD_eq_getElem s ' ' hlen ▸ List.getElem_mem hlen))
  simp only [pyRfindN, hfil]
  rfl

theorem chunkEnd_noBoundary {text : List Char} (hdot : ('.' : Char) ∉ text)
    (hnl : ('\n' : Char) ∉ text) (chunk_size : Nat) (start : Int)
    (hs : 0 ≤ start) : chunkEnd text chunk_size start = start + chunk_size := by
  by_cases h1 : start + (chunk_size : Int) < (text.length : Int)
  · have hb : ¬ ((-1 : Int) > start) := by omega
    simp [chunkEnd, pyRfind, pyRfindN_not_mem hdot, pyRfindN_not_mem hnl, h1, hb]
  · simp [chunkEnd, h1]

theorem nextStart_advance {text : List Char} {chunk_size overlap : Nat}
    (h : (overlap = 0 ∧ 1 ≤ chunk_size) ∨ overlap + 100 ≤ chunk_size)
    {start : Int} (hs : 0 ≤ start) (hlt : start < (text.length : Int)) :
    start + 1 ≤ nextStart text chunk_size overlap start := by
  have hcs : 1 ≤ chunk_size := by rcases h with ⟨_, h'⟩ | h' <;> omega
  by_cases h1 : start + (chunk_size : Int) < (text.length : Int)
  · set ss : Int := max (start + (chunk_size : Int) - 100) start with hss
    set lp := pyRfind text '.' ss (start + (chunk_size : Int)) with hlp
    set ln := pyRfind text '\n' ss (start + (chunk_size : Int)) with hln
    by_cases h2 : max lp ln > start
    · -- snapped: e = last_boundary + 1
      have hE : chunkEnd text chunk_size start = max lp ln + 1 := by
        simp only [chunkEnd, if_pos h1, ← hss, ← hlp, ← hln, if_pos h2]
      have hlb : max lp ln ≥ ss ∨ overlap = 0 := by
        rcases h with ⟨hov, _⟩ | hov
        · exact Or.inr hov
        · left
          have hss0 : (0 : Int) ≤ ss := le_trans hs (le_max_right _ _)
          have hsslen : ss < (text.length : Int) := by
            apply max_lt _ hlt
            omega
          have hnorm : ((normIdx text.length ss : Nat) : Int) = ss := by
            unfold normIdx
            rw [if_neg (by omega)]
            omega
          rcases max_choice lp ln with hm | hm <;> rw [hm]
          · rcases pyRfindN_bounds text '.' (normIdx text.length ss)
                (normIdx text.length (start + (chunk_size : Int))) with hr | ⟨i, hr, hi1, _, _⟩
            · rw [pyRfind] at hlp
              rw [hlp] at *
              omega
            · rw [pyRfind] at hlp
              rw [hlp, hr]
              omega
          · rcases pyRfindN_bounds text '\n' (normIdx text.length ss)
                (normIdx text.length (start + (chunk_size : Int))) with hr | ⟨i, hr, hi1, _, _⟩
            · rw [pyRfind] at hln
              rw [hln] at *
              omega
            · rw [pyRfind] at hln
              rw [hln, hr]
              omega
      unfold nextStart
      rw [hE]
      rcases hlb with hlb | hov0
      · rcases h with ⟨hov, _⟩ | hov
        · split_ifs <;> omega
        · split_ifs <;> omega
      · split_ifs <;> omega
    · have hE : chunkEnd text chunk_size start = start + chunk_size := by
        simp only [chunkEnd, if_pos h1, ← hss, ← hlp, ← hln, if_neg h2]
      unfold nextStart
      rw [hE]
      rcases h with ⟨hov, _⟩ | hov <;> split_ifs <;> omega
  · have hE : chunkEnd text chunk_size start = start + chunk_size := by
      simp [chunkEnd, h1]
    unfold nextStart
    rw [hE, if_neg h1]
    omega

theorem chunkLoop_isSome {text : List Char} {chunk_size overlap : Nat}
    (h : (overlap = 0 ∧ 1 ≤ chunk_size) ∨ overlap + 100 ≤ chunk_size) :
    ∀ (fuel : Nat) (start : Int) (acc : List (List Char)), 0 ≤ start →
      ((text.length : Int) - start).toNat < fuel →
      (chunkLoop text chunk_size overlap fuel start acc).isSome = true := by
  intro fuel
  induction fuel with
  | zero => intro start acc _ hf; exact absurd hf (Nat.not_lt_zero _)
  | succ f ih =>
    intro start acc hs hf
    rw [chunkLoop_succ]
    split_ifs with hlt hc
    · have hadv := nextStart_advance h hs hlt
      exact ih _ _ (by omega) (by omega)
    · have hadv := nextStart_advance h hs hlt
      exact ih _ _ (by omega) (by omega)
    · rfl

/-- **C5 (amended).** `chunk_text` terminates whenever `overlap = 0` (with
a positive `chunk_size`), or whenever `chunk_size ≥ overlap + 100` — in
particular at the configured defaults 500/50, where the 100-character
boundary search cannot push the cursor back to or before its previous
position.  It does **not** terminate for every `overlap < chunk_size`:
see the counterexample. -/
theorem C5_termination_amended (text : List Char) (chunk_size overlap : Nat)
    (h : (overlap = 0 ∧ 1 ≤ chunk_size) ∨ overlap + 100 ≤ chunk_size) :
    (chunk_text text chunk_size overlap).isSome = true ∧
    chunkTerminates text chunk_size overlap := by
  constructor
  · unfold chunk_text
    split_ifs with hempty
    · rfl
    · exact chunkLoop_isSome h _ 0 [] le_rfl (by omega)
  · exact ⟨text.length + 1, chunkLoop_isSome h _ 0 [] le_rfl (by omega)⟩

/-- Witness for C5's amended statement at the default configuration
(chunk_size 500, overlap 50) on a small text. -/
theorem C5_termination_amended_witness :
    (50 + 100 ≤ 500) ∧
    (chunk_text (String.toList "ab.cdefgh") 500 50).isSome = true ∧
    chunkTerminates (String.toList "ab.cdefgh") 500 50 :=
  ⟨by decide,
   C5_termination_amended (String.toList "ab.cdefgh") 500 50 (Or.inr (by decide))⟩

theorem badNextStart : nextStart (String.toList "ab.cdefgh") 5 3 0 = 0 := by
  decide

theorem badLoop : ∀ (fuel : Nat) (acc : List (List Char)),
    chunkLoop (String.toList "ab.cdefgh") 5 3 fuel 0 acc = none := by
  intro fuel
  induction fuel with
  | zero => intro acc; rfl
  | succ f ih =>
    intro acc
    rw [chunkLoop_succ]
    rw [if_pos (by decide : (0 : Int) < ((String.toList "ab.cdefgh").length : Int))]
    rw [badNextStart]
    exact ih _

/-- **C5 (counterexample).** With `chunk_size = 5` and `overlap = 3`
(so `0 ≤ overlap < chunk_size`), on the text `"ab.cdefgh"` the loop snaps
the window end to just after the period at index 2 and then retreats the
cursor to `3 - 3 = 0`: the cursor never advances and `chunk_text` never
terminates, contradicting the claim that only `overlap ≥ chunk_size`
fails to terminate. -/
theorem C5_nontermination_counterexample :
    ((3 : Nat) < 5 ∧ String.toList "ab.cdefgh" ≠ []) ∧
    ¬ chunkTerminates (String.toList "ab.cdefgh") 5 3 := by
  refine ⟨by decide, ?_⟩
  rintro ⟨fuel, hf⟩
  rw [badLoop fuel []] at hf
  simp at hf

/-- **C6 (amended).** `chunk_text ""` is the empty sequence; for non-empty
text strictly shorter than `chunk_size` the single window is the whole
text, **stripped**: the result is `[text.strip()]` when that is
non-empty, and the empty sequence when the text is whitespace-only. -/
theorem C6_degenerate_amended (text : List Char) (chunk_size overlap : Nat) :
    (text = [] → chunk_text text chunk_size overlap = some []) ∧
    (text ≠ [] → text.length < chunk_size →
      chunk_text text chunk_size overlap =
        some (if pyStrip text = [] then [] else [pyStrip text])) := by
  constructor
  · intro h
    simp [chunk_text, h]
  · intro hne hlen
    obtain ⟨c, rest, rfl⟩ : ∃ c rest, text = c :: rest := by
      cases text with
      | nil => exact absurd rfl hne
      | cons c rest => exact ⟨c, rest, rfl⟩
    unfold chunk_text
    rw [if_neg hne]
    have hE : chunkEnd (c :: rest) chunk_size 0 = (chunk_size : Int) := by
      simp only [chunkEnd]
      rw [if_neg (by push_cast; omega)]
      omega
    have hSlice : pySlice (c :: rest) 0 (chunk_size : Int) = c :: rest := by
      simp only [pySlice, normIdx]
      rw [if_neg (by omega), if_neg (by omega)]
      have h1 : min (0 : Int).toNat (c :: rest).length = 0 := by omega
      have h2 : min (chunk_size : Int).toNat (c :: rest).length =
          (c :: rest).length := by omega
      rw [h1, h2, List.take_length, List.drop_zero]
    have hN : nextStart (c :: rest) chunk_size overlap 0 = (chunk_size : Int) := by
      unfold nextStart
      rw [hE, if_neg (by push_cast; omega)]
    have hpos : (0 : Int) < (((c :: rest).length : Nat) : Int) := by
      simp
    have hlenc : (c :: rest).length = rest.length + 1 := rfl
    rw [hlenc, chunkLoop_succ, if_pos hpos, hE, hSlice, hN, chunkLoop_succ]
    rw [if_neg (by push_cast; omega : ¬ ((chunk_size : Int) < (((c :: rest).length : Nat) : Int)))]
    by_cases hc : pyStrip (c :: rest) = [] <;> simp [hc]

/-- Witness for C6's amended statement: the empty text and the two-letter
text `"ab"` under the default configuration. -/
theorem C6_degenerate_amended_witness :
    chunk_text [] 500 50 = some [] ∧
    (String.toList "ab" ≠ [] ∧ (String.toList "ab").length < 500 ∧
      chunk_text (String.toList "ab") 500 50 =
        some (if pyStrip (String.toList "ab") = [] then []
              else [pyStrip (String.toList "ab")])) :=
  ⟨(C6_degenerate_amended [] 500 50).1 rfl, by decide, by decide,
   (C6_degenerate_amended (String.toList "ab") 500 50).2 (by decide) (by decide)⟩

/-- **C6 (counterexample).** The one-character text `" "` is non-empty
and shorter than the default `chunk_size = 500`, but the single window is
stripped to nothing and dropped (lines 47-49 of the source), so
`chunk_text` returns zero chunks, not exactly one. -/
theorem C6_whitespace_counterexample :
    String.toList " " ≠ [] ∧ (String.toList " ").length < 500 ∧
    chunk_text (String.toList " ") 500 50 = some [] := by
  refine ⟨by decide, by decide, ?_⟩
  decide

theorem windowLoop_append (text : List Char) (chunk_size overlap : Nat) :
    ∀ (fuel : Nat) (start : Int) (acc : List (List Char)),
      windowLoop text chunk_size overlap fuel start acc =
        (windowLoop text chunk_size overlap fuel start []).map
          (fun ws => acc ++ ws) := by
  intro fuel
  induction fuel with
  | zero => intro start acc; rfl
  | succ f ih =>
    intro start acc
    rw [windowLoop_succ, windowLoop_succ]
    split_ifs with h
    · rw [ih (nextStart text chunk_size overlap start)
        (acc ++ [pySlice text start (chunkEnd text chunk_size start)]),
        ih (nextStart text chunk_size overlap start)
        ([] ++ [pySlice text start (chunkEnd text chunk_size start)])]
      cases windowLoop text chunk_size overlap f
        (nextStart text chunk_size overlap start) [] <;> simp
    · simp

theorem chunkLoop_append (text : List Char) (chunk_size overlap : Nat) :
    ∀ (fuel : Nat) (start : Int) (acc : List (List Char)),
      chunkLoop text chunk_size overlap fuel start acc =
        (chunkLoop text chunk_size overlap fuel start []).map
          (fun l => acc ++ l) := by
  intro fuel
  induction fuel with
  | zero => intro start acc; rfl
  | succ f ih =>
    intro start acc
    rw [chunkLoop_succ, chunkLoop_succ]
    split_ifs with h hc
    · rw [ih (nextStart text chunk_size overlap start) acc]
    · rw [ih (nextStart text chunk_size overlap start)
        (acc ++ [pyStrip (pySlice text start (chunkEnd text chunk_size start))]),
        ih (nextStart text chunk_size overlap start)
        ([] ++ [pyStrip (pySlice text start (chunkEnd text chunk_size start))])]
      cases chunkLoop text chunk_size overlap f
        (nextStart text chunk_size overlap start) [] <;> simp
    · simp

theorem chunkLoop_eq_windowLoop (text : List Char) (chunk_size overlap : Nat) :
    ∀ (fuel : Nat) (start : Int),
      chunkLoop text chunk_size overlap fuel start [] =
        (windowLoop text chunk_size overlap fuel start []).map
          (fun ws => (ws.map pyStrip).filter (fun w => w ≠ [])) := by
  intro fuel
  induction fuel with
  | zero => intro start; rfl
  | succ f ih =>
    intro start
    rw [chunkLoop_succ, windowLoop_succ]
    split_ifs with h hc
    · rw [chunkLoop_append, windowLoop_append, ih]
      cases windowLoop text chunk_size overlap f
        (nextStart text chunk_size overlap start) [] <;> simp [hc]
    · rw [chunkLoop_append, windowLoop_append, ih]
      cases windowLoop text chunk_size overlap f
        (nextStart text chunk_size overlap start) [] <;> simp [hc]
    · rfl

theorem take_min (l : List Char) (b : Nat) : l.take (min b l.length) = l.take b := by
  by_cases h : b ≤ l.length
  · rw [min_eq_left h]
  · rw [min_eq_right (by omega), List.take_length,
      List.take_of_length_le (by omega)]

theorem pySlice_natCast (s : List Char) (a b : Nat) :
    pySlice s (a : Int) (b : Int) = (s.take b).drop a := by
  simp only [pySlice, normIdx]
  rw [if_neg (by omega), if_neg (by omega),
    show ((b : Int).toNat) = b by omega, show ((a : Int).toNat) = a by omega,
    take_min]
  by_cases h : a ≤ s.length
  · rw [min_eq_left h]
  · rw [min_eq_right (by omega)]
    rw [List.drop_eq_nil_of_le, List.drop_eq_nil_of_le]
    · rw [List.length_take]
      omega
    · rw [List.length_take]
      omega

theorem take_drop_drop_append {l : List Char} {a b : Nat} (hab : a ≤ b) :
    (l.take b).drop a ++ l.drop b = l.drop a := by
  by_cases hb : b ≤ l.length
  · have hlen : a ≤ (l.take b).length := by
      rw [List.length_take]
      omega
    conv_rhs => rw [← List.take_append_drop b l]
    rw [List.drop_append_of_le_length hlen]
  · have h1 : l.take b = l := List.take_of_length_le (by omega)
    have h2 : l.drop b = [] := List.drop_eq_nil_of_le (by omega)
    rw [h1, h2, List.append_nil]

theorem windowLoop_recon {text : List Char} {chunk_size overlap : Nat}
    (hov : overlap < chunk_size) (hdot : ('.' : Char) ∉ text)
    (hnl : ('\n' : Char) ∉ text) :
    ∀ (fuel : Nat) (start : Nat), text.length - start < fuel →
      ∃ ws, windowLoop text chunk_size overlap fuel (start : Int) [] = some ws ∧
        overlapJoin overlap ws = text.drop start ∧
        (ws.map (fun w => w.drop overlap)).flatten =
          text.drop (start + overlap) := by
  intro fuel
  induction fuel with
  | zero => intro start h; exact absurd h (Nat.not_lt_zero _)
  | succ f ih =>
    intro start hf
    by_cases hlt : start < text.length
    · have hltI : ((start : Nat) : Int) < (text.length : Int) := by
        exact_mod_cast hlt
      have hE := chunkEnd_noBoundary hdot hnl chunk_size (start : Int)
        (Int.natCast_nonneg start)
      have hw : pySlice text (start : Int) (chunkEnd text chunk_size (start : Int)) =
          (text.take (start + chunk_size)).drop start := by
        rw [hE, show ((start : Int) + (chunk_size : Int)) =
          ((start + chunk_size : Nat) : Int) by push_cast; ring, pySlice_natCast]
      by_cases hend : start + chunk_size < text.length
      · have hendI : ((start : Int) + (chunk_size : Int)) < (text.length : Int) := by
          push_cast
          omega
        have hN : nextStart text chunk_size overlap (start : Int) =
            ((start + (chunk_size - overlap) : Nat) : Int) := by
          unfold nextStart
          rw [hE, if_pos hendI]
          push_cast
          omega
        obtain ⟨ws', hW', hJ1', hJ2'⟩ := ih (start + (chunk_size - overlap))
          (by omega)
        have hWfull : windowLoop text chunk_size overlap (f + 1) (start : Int) [] =
            some (((text.take (start + chunk_size)).drop start) :: ws') := by
          rw [windowLoop_succ, if_pos hltI, windowLoop_append, hN, hW']
          simp [hw]
        refine ⟨_, hWfull, ?_, ?_⟩
        · simp only [overlapJoin]
          rw [hJ2', show start + (chunk_size - overlap) + overlap =
            start + chunk_size by omega]
          exact take_drop_drop_append (by omega)
        · simp only [List.map_cons, List.flatten_cons]
          rw [hJ2', show start + (chunk_size - overlap) + overlap =
            start + chunk_size by omega, List.drop_drop]
          exact take_drop_drop_append (by omega)
      · have hendI : ¬ (((start : Int) + (chunk_size : Int)) < (text.length : Int)) := by
          push_cast
          omega
        have hN : nextStart text chunk_size overlap (start : Int) =
            ((start + chunk_size : Nat) : Int) := by
          unfold nextStart
          rw [hE, if_neg hendI]
          push_cast
          ring
        obtain ⟨ws', hW', hJ1', hJ2'⟩ := ih (start + chunk_size) (by omega)
        have hWfull : windowLoop text chunk_size overlap (f + 1) (start : Int) [] =
            some (((text.take (start + chunk_size)).drop start) :: ws') := by
          rw [windowLoop_succ, if_pos hltI, windowLoop_append, hN, hW']
          simp [hw]
        have htake : text.take (start + chunk_size) = text :=
          List.take_of_length_le (by omega)
        have hnil2 : (ws'.map (fun w => w.drop overlap)).flatten = [] := by
          rw [hJ2']
          exact List.drop_eq_nil_of_le (by omega)
        refine ⟨_, hWfull, ?_, ?_⟩
        · simp only [overlapJoin]
          rw [hnil2, htake, List.append_nil]
        · simp only [List.map_cons, List.flatten_cons]
          rw [hnil2, htake, List.append_nil, List.drop_drop]
    · have hltI : ¬ (((start : Nat) : Int) < (text.length : Int)) := by
        exact_mod_cast hlt
      rw [windowLoop_succ, if_neg hltI]
      refine ⟨[], rfl, ?_, ?_⟩
      · rw [List.drop_eq_nil_of_le (by omega)]
        rfl
      · rw [List.drop_eq_nil_of_le (by omega)]
        rfl

/-- **C4 (amended).** For non-empty text with `0 ≤ overlap < chunk_size`,
when no boundary snapping occurs (the text contains no `'.'` and no
newline), the raw windows the loop visits, concatenated ignoring the
`overlap` characters each shares with its predecessor, reconstruct the
text exactly; the chunks `chunk_text` returns are these windows
whitespace-stripped with whitespace-only windows dropped, so the returned
chunks themselves reconstruct the text only up to that stripping (see the
counterexample). -/
theorem C4_reconstruction_amended (text : List Char) (chunk_size overlap : Nat)
    (hne : text ≠ []) (hov : overlap < chunk_size)
    (hdot : ('.' : Char) ∉ text) (hnl : ('\n' : Char) ∉ text) :
    ∃ ws, windowLoop text chunk_size overlap (text.length + 1) 0 [] = some ws ∧
      overlapJoin overlap ws = text ∧
      chunk_text text chunk_size overlap =
        some ((ws.map pyStrip).filter (fun w => w ≠ [])) := by
  obtain ⟨ws, hW, hJ, _⟩ := windowLoop_recon hov hdot hnl (text.length + 1) 0
    (by omega)
  have hW0 : windowLoop text chunk_size overlap (text.length + 1) 0 [] =
      some ws := by
    exact_mod_cast hW
  refine ⟨ws, hW0, by simpa using hJ, ?_⟩
  unfold chunk_text
  rw [if_neg hne, chunkLoop_eq_windowLoop, hW0]
  rfl

/-- Witness for C4's amended statement on `"hello world"` with
`chunk_size = 8`, `overlap = 3`. -/
theorem C4_reconstruction_amended_witness :
    ∃ ws, windowLoop (String.toList "hello world") 8 3
        ((String.toList "hello world").length + 1) 0 [] = some ws ∧
      overlapJoin 3 ws = String.toList "hello world" ∧
      chunk_text (String.toList "hello world") 8 3 =
        some ((ws.map pyStrip).filter (fun w => w ≠ [])) :=
  C4_reconstruction_amended (String.toList "hello world") 8 3
    (by decide) (by decide) (by decide) (by decide)

/-- **C4 (counterexample).** With `chunk_size = 5` and `overlap = 0`
(consecutive chunks share nothing), `chunk_text "abc  xyz"` returns
`["abc", "xyz"]` — each window is whitespace-stripped before emission —
so the concatenation ignoring overlapping regions is `"abcxyz"`, not the
original text. -/
theorem C4_strip_counterexample :
    (String.toList "abc  xyz" ≠ [] ∧ (0 : Nat) < 5) ∧
    chunk_text (String.toList "abc  xyz") 5 0 =
      some [String.toList "abc", String.toList "xyz"] ∧
    overlapJoin 0 [String.toList "abc", String.toList "xyz"] ≠
      String.toList "abc  xyz" := by
  exact ⟨by decide, by decide, by decide⟩

theorem groupRuns_cons_eq (c : ChunkRec) (rest : List ChunkRec) :
    groupRuns (c :: rest) =
      (match groupRuns rest with
       | [] => [[c]]
       | g :: gs =>
         if headDoc g = some c.document_id then (c :: g) :: gs
         else [c] :: g :: gs) := rfl

theorem groupRuns_cons_nil {rest : List ChunkRec} (c : ChunkRec)
    (hR : groupRuns rest = []) : groupRuns (c :: rest) = [[c]] := by
  rw [groupRuns_cons_eq, hR]

theorem groupRuns_cons_cons {rest g : List ChunkRec} {gs : List (List ChunkRec)}
    (c : ChunkRec) (hR : groupRuns rest = g :: gs) :
    groupRuns (c :: rest) =
      if headDoc g = some c.document_id then (c :: g) :: gs
      else [c] :: g :: gs := by
  rw [groupRuns_cons_eq, hR]

theorem groupRuns_ne_nil {l : List ChunkRec} (h : groupRuns l = []) : l = [] := by
  cases l with
  | nil => rfl
  | cons c rest =>
    exfalso
    rcases hR : groupRuns rest with _ | ⟨g, gs⟩
    · rw [groupRuns_cons_nil c hR] at h
      exact List.cons_ne_nil _ _ h
    · rw [groupRuns_cons_cons c hR] at h
      by_cases hg : headDoc g = some c.document_id <;> simp [hg] at h

theorem groupRuns_flatten (l : List ChunkRec) : (groupRuns l).flatten = l := by
  induction l with
  | nil => rfl
  | cons c rest ih =>
    rcases hR : groupRuns rest with _ | ⟨g, gs⟩
    · have h0 := groupRuns_ne_nil hR
      subst h0
      rfl
    · rw [hR] at ih
      simp only [List.flatten_cons] at ih
      rw [groupRuns_cons_cons c hR]
      by_cases hg : headDoc g = some c.document_id
      · rw [if_pos hg]
        simp [List.flatten_cons, ih]
      · rw [if_neg hg]
        simp [List.flatten_cons, ih]

theorem groupRuns_uniform (l : List ChunkRec) :
    ∀ g ∈ groupRuns l, ∀ a ∈ g, ∀ b ∈ g, a.document_id = b.document_id := by
  induction l with
  | nil => intro g hg; simp [groupRuns] at hg
  | cons c rest ih =>
    intro g' hg' a ha b hb
    rcases hR : groupRuns rest with _ | ⟨g, gs⟩
    · rw [groupRuns_cons_nil c hR] at hg'
      simp at hg'
      subst hg'
      simp at ha hb
      rw [ha, hb]
    · rw [groupRuns_cons_cons c hR] at hg'
      rw [hR] at ih
      by_cases hg : headDoc g = some c.document_id
      · rw [if_pos hg] at hg'
        rcases List.mem_cons.mp hg' with h | h
        · subst h
          cases g with
          | nil => simp [headDoc] at hg
          | cons g0 gtl =>
            have hg0 : g0.document_id = c.document_id := by
              simpa [headDoc] using hg
            have huni := ih (g0 :: gtl) (List.mem_cons_self _ _)
            have key : ∀ x ∈ c :: g0 :: gtl, x.document_id = c.document_id := by
              intro x hx
              rcases List.mem_cons.mp hx with h' | h'
              · rw [h']
              · exact (huni x h' g0 (List.mem_cons_self _ _)).trans hg0
            exact (key a ha).trans (key b hb).symm
        · exact ih g' (List.mem_cons_of_mem _ h) a ha b hb
      · rw [if_neg hg] at hg'
        rcases List.mem_cons.mp hg' with h | h
        · subst h
          simp at ha hb
          rw [ha, hb]
        · exact ih g' h a ha b hb

theorem groupRuns_chain (l : List ChunkRec) :
    List.Chain' (fun g h => headDoc g ≠ headDoc h) (groupRuns l) := by
  induction l with
  | nil => simp [groupRuns]
  | cons c rest ih =>
    rcases hR : groupRuns rest with _ | ⟨g, gs⟩
    · rw [groupRuns_cons_nil c hR]
      simp
    · rw [groupRuns_cons_cons c hR]
      rw [hR] at ih
      by_cases hg : headDoc g = some c.document_id
      · rw [if_pos hg]
        have hhead : headDoc (c :: g) = headDoc g := by
          simp only [headDoc, List.head?_cons, Option.map_some]
          exact hg.symm
        cases gs with
        | nil => simp
        | cons h hs =>
          rw [List.chain'_cons] at ih ⊢
          exact ⟨hhead ▸ ih.1, ih.2⟩
      · rw [if_neg hg]
        rw [List.chain'_cons]
        refine ⟨?_, ih⟩
        simp only [headDoc, List.head?_cons, Option.map_some]
        exact fun h => hg (by simpa [headDoc] using h.symm)

theorem groupTail_cons (c : ChunkRec) (g : List ChunkRec) :
    groupTail (c :: g) = c.content :: "\n\n" :: groupTail g := by
  simp [groupTail]

theorem contextParts_some (l : List ChunkRec) (d : String) :
    contextParts (some d) l = contParts d (groupRuns l) := by
  induction l generalizing d with
  | nil => rfl
  | cons c rest ih =>
    rcases hR : groupRuns rest with _ | ⟨g, gs⟩
    · have h0 := groupRuns_ne_nil hR
      subst h0
      by_cases hd : d = c.document_id <;>
        simp [contextParts, groupRuns, contParts, hd, headDoc, groupParts,
          groupTail, eq_comm]
    · have ihc := ih c.document_id
      rw [hR] at ihc
      rw [groupRuns_cons_cons c hR]
      by_cases hg : headDoc g = some c.document_id
      · rw [if_pos hg]
        have hhead : headDoc (c :: g) = some c.document_id := by
          simp [headDoc]
        simp only [contParts, hg, if_pos rfl] at ihc
        by_cases hd : d = c.document_id <;>
          simp [contextParts, contParts, ihc, hhead, hd, eq_comm,
            groupParts, groupTail_cons]
      · rw [if_neg hg]
        have hhead : headDoc [c] = some c.document_id := by simp [headDoc]
        simp only [contParts, hg, if_neg hg] at ihc
        by_cases hd : d = c.document_id <;>
          simp [contextParts, contParts, ihc, hhead, hd, eq_comm,
            groupParts, groupTail_cons, groupTail]

theorem contextParts_none (l : List ChunkRec) :
    contextParts none l = groupsParts (groupRuns l) := by
  cases l with
  | nil => rfl
  | cons c rest =>
    have step : contextParts none (c :: rest) =
        sourceHeader :: c.content :: "\n\n" :: contextParts (some c.document_id) rest := by
      simp [contextParts]
    rw [step, contextParts_some rest c.document_id]
    rcases hR : groupRuns rest with _ | ⟨g, gs⟩
    · rw [groupRuns_cons_nil c hR]
      simp [contParts, groupsParts, groupParts, groupTail]
    · rw [groupRuns_cons_cons c hR]
      by_cases hg : headDoc g = some c.document_id
      · rw [if_pos hg]
        simp [contParts, groupsParts, groupParts, groupTail_cons, hg]
      · rw [if_neg hg]
        simp [contParts, groupsParts, groupParts, groupTail_cons, groupTail, hg]

/-- **C7.** `construct_context` on the empty input is `""`; otherwise the
chunks are stably sorted by `(document_id, chunk_index)` ascending (a
permutation of the input, pairwise ordered, equal-key pairs keeping their
input order), the sorted order keeps each document's chunks contiguous,
and the assembled parts list decomposes into per-document groups with the
`"[Source]\n"` header opening each group, exactly one `"\n---\n"` marker
between consecutive groups, and no marker before the first. -/
theorem C7_context_assembly (chunks : List ChunkRec) :
    construct_context [] = "" ∧
    (sortChunks chunks).Perm chunks ∧
    (sortChunks chunks).Pairwise keyRel ∧
    (∀ a b, keyRel a b → List.Sublist [a, b] chunks →
      List.Sublist [a, b] (sortChunks chunks)) ∧
    (∀ (i j k : Fin (sortChunks chunks).length), i ≤ j → j ≤ k →
      ((sortChunks chunks).get i).document_id =
        ((sortChunks chunks).get k).document_id →
      ((sortChunks chunks).get j).document_id =
        ((sortChunks chunks).get i).document_id) ∧
    ((groupRuns (sortChunks chunks)).flatten = sortChunks chunks ∧
      (∀ g ∈ groupRuns (sortChunks chunks), ∀ a ∈ g, ∀ b ∈ g,
        a.document_id = b.document_id) ∧
      List.Chain' (fun g h => headDoc g ≠ headDoc h)
        (groupRuns (sortChunks chunks))) ∧
    contextParts none (sortChunks chunks) =
      groupsParts (groupRuns (sortChunks chunks)) := by
  have hsorted : (sortChunks chunks).Pairwise keyRel :=
    List.sorted_insertionSort keyRel chunks
  refine ⟨rfl, List.perm_insertionSort keyRel chunks, hsorted, ?_, ?_, ?_, ?_⟩
  · intro a b hab hsub
    exact List.pair_sublist_insertionSort hab hsub
  · intro i j k hij hjk hik
    have docLE : ∀ (p q : Fin (sortChunks chunks).length), p ≤ q →
        ((sortChunks chunks).get p).document_id.data ≤
          ((sortChunks chunks).get q).document_id.data := by
      intro p q hpq
      rcases lt_or_eq_of_le hpq with h | h
      · have := List.pairwise_iff_get.mp hsorted p q h
        rcases this with h' | ⟨h', _⟩
        · exact le_of_lt h'
        · exact le_of_eq (congrArg String.data h')
      · rw [h]
    have h1 := docLE i j hij
    have h2 := docLE j k hjk
    rw [← hik] at h2
    exact String.ext (le_antisymm h2 h1)
  · exact ⟨groupRuns_flatten _, groupRuns_uniform _, groupRuns_chain _⟩
  · exact contextParts_none _

/-- Witness for C7 at a concrete two-document, retrieval-order-scrambled
input. -/
theorem C7_context_assembly_witness :
    construct_context [] = "" ∧
    (sortChunks [⟨"cB1", "docB", "b1", 1⟩, ⟨"cA0", "docA", "a0", 0⟩,
        ⟨"cB0", "docB", "b0", 0⟩]).Perm
      [⟨"cB1", "docB", "b1", 1⟩, ⟨"cA0", "docA", "a0", 0⟩,
        ⟨"cB0", "docB", "b0", 0⟩] ∧
    (sortChunks [⟨"cB1", "docB", "b1", 1⟩, ⟨"cA0", "docA", "a0", 0⟩,
        ⟨"cB0", "docB", "b0", 0⟩]).Pairwise keyRel ∧
    (∀ a b, keyRel a b →
      List.Sublist [a, b] [⟨"cB1", "docB", "b1", 1⟩, ⟨"cA0", "docA", "a0", 0⟩,
        ⟨"cB0", "docB", "b0", 0⟩] →
      List.Sublist [a, b] (sortChunks [⟨"cB1", "docB", "b1", 1⟩,
        ⟨"cA0", "docA", "a0", 0⟩, ⟨"cB0", "docB", "b0", 0⟩])) ∧
    (∀ (i j k : Fin (sortChunks [⟨"cB1", "docB", "b1", 1⟩,
        ⟨"cA0", "docA", "a0", 0⟩, ⟨"cB0", "docB", "b0", 0⟩]).length),
      i ≤ j → j ≤ k →
      ((sortChunks [⟨"cB1", "docB", "b1", 1⟩, ⟨"cA0", "docA", "a0", 0⟩,
        ⟨"cB0", "docB", "b0", 0⟩]).get i).document_id =
        ((sortChunks [⟨"cB1", "docB", "b1", 1⟩, ⟨"cA0", "docA", "a0", 0⟩,
        ⟨"cB0", "docB", "b0", 0⟩]).get k).document_id →
      ((sortChunks [⟨"cB1", "docB", "b1", 1⟩, ⟨"cA0", "docA", "a0", 0⟩,
        ⟨"cB0", "docB", "b0", 0⟩]).get j).document_id =
        ((sortChunks [⟨"cB1", "docB", "b1", 1⟩, ⟨"cA0", "docA", "a0", 0⟩,
        ⟨"cB0", "docB", "b0", 0⟩]).get i).document_id) ∧
    ((groupRuns (sortChunks [⟨"cB1", "docB", "b1", 1⟩, ⟨"cA0", "docA", "a0", 0⟩,
        ⟨"cB0", "docB", "b0", 0⟩])).flatten =
      sortChunks [⟨"cB1", "docB", "b1", 1⟩, ⟨"cA0", "docA", "a0", 0⟩,
        ⟨"cB0", "docB", "b0", 0⟩] ∧
      (∀ g ∈ groupRuns (sortChunks [⟨"cB1", "docB", "b1", 1⟩,
        ⟨"cA0", "docA", "a0", 0⟩, ⟨"cB0", "docB", "b0", 0⟩]), ∀ a ∈ g, ∀ b ∈ g,
        a.document_id = b.document_id) ∧
      List.Chain' (fun g h => headDoc g ≠ headDoc h)
        (groupRuns (sortChunks [⟨"cB1", "docB", "b1", 1⟩,
          ⟨"cA0", "docA", "a0", 0⟩, ⟨"cB0", "docB", "b0", 0⟩]))) ∧
    contextParts none (sortChunks [⟨"cB1", "docB", "b1", 1⟩,
        ⟨"cA0", "docA", "a0", 0⟩, ⟨"cB0", "docB", "b0", 0⟩]) =
      groupsParts (groupRuns (sortChunks [⟨"cB1", "docB", "b1", 1⟩,
        ⟨"cA0", "docA", "a0", 0⟩, ⟨"cB0", "docB", "b0", 0⟩])) :=
  C7_context_assembly
    [⟨"cB1", "docB", "b1", 1⟩, ⟨"cA0", "docA", "a0", 0⟩, ⟨"cB0", "docB", "b0", 0⟩]

theorem setOrder_length {f : List String → List String}
    (hf : admissibleSetOrder f) (xs : List String) :
    (f xs).length = xs.dedup.length := by
  have h2 : ∀ a, a ∈ f xs ↔ a ∈ xs.dedup := by
    intro a
    rw [(hf xs).2 a]
    exact List.mem_dedup.symm
  exact ((List.perm_ext_iff_of_nodup (hf xs).1 xs.nodup_dedup).mpr h2).length_eq

/-- **C10.** Successful responses satisfy `num_sources = len(sources)`:
both are zero in the no-retrieval and all-lookups-missed branches, and in
the normal branch `num_sources` is the number of distinct document ids of
the contributing chunks. -/
theorem C10_num_sources_invariant (setOrder : List String → List String)
    (embedQ : Option Vec) (s : FAISSState) (k : Nat)
    (db : String → Option ChunkRec) (llm : Option String)
    (hf : admissibleSetOrder setOrder) :
    ((answer_question setOrder embedQ s k db llm).success = true →
      (answer_question setOrder embedQ s k db llm).num_sources =
        (answer_question setOrder embedQ s k db llm).sources.length) ∧
    (∀ q, embedQ = some q → (search s q k).2 = [] →
      (answer_question setOrder embedQ s k db llm).sources = [] ∧
      (answer_question setOrder embedQ s k db llm).num_sources = 0) ∧
    (∀ q, embedQ = some q → ((search s q k).2).filterMap db = [] →
      (answer_question setOrder embedQ s k db llm).sources = [] ∧
      (answer_question setOrder embedQ s k db llm).num_sources = 0) ∧
    (∀ q, embedQ = some q → (search s q k).2 ≠ [] →
      ((search s q k).2).filterMap db ≠ [] →
      (answer_question setOrder embedQ s k db llm).num_sources =
        ((((search s q k).2).filterMap db).map
          (fun c => c.document_id)).dedup.length) := by
  cases embedQ with
  | none => refine ⟨?_, ?_, ?_, ?_⟩ <;> simp [answer_question]
  | some q =>
    by_cases hids : (search s q k).2 = []
    · refine ⟨?_, ?_, ?_, ?_⟩ <;> simp [answer_question, hids]
    · by_cases hch : ((search s q k).2).filterMap db = []
      · refine ⟨?_, ?_, ?_, ?_⟩ <;> simp [answer_question, hids, hch]
      · refine ⟨?_, ?_, ?_, ?_⟩
        · simp [answer_question, hids, hch]
        · intro q' hq' h
          injection hq' with hq'
          subst hq'
          exact absurd h hids
        · intro q' hq' h
          injection hq' with hq'
          subst hq'
          exact absurd h hch
        · intro q' hq' h1 h2
          injection hq' with hq'
          subst hq'
          simp [answer_question, hids, hch, setOrder_length hf]

/-- Witness for C10 at the concrete normal-branch run also used for C8. -/
theorem C10_num_sources_invariant_witness :
    ((answer_question (fun xs => xs.dedup) (some [0, 0])
        ⟨2, [[3, 0], [1, 0]], ["cA1", "cB0"]⟩ 5 dbCex (some "ans")).success = true →
      (answer_question (fun xs => xs.dedup) (some [0, 0])
        ⟨2, [[3, 0], [1, 0]], ["cA1", "cB0"]⟩ 5 dbCex (some "ans")).num_sources =
        (answer_question (fun xs => xs.dedup) (some [0, 0])
          ⟨2, [[3, 0], [1, 0]], ["cA1", "cB0"]⟩ 5 dbCex (some "ans")).sources.length) ∧
    (answer_question (fun xs => xs.dedup) (some [0, 0])
        ⟨2, [[3, 0], [1, 0]], ["cA1", "cB0"]⟩ 5 dbCex (some "ans")).num_sources =
      ((((search ⟨2, [[3, 0], [1, 0]], ["cA1", "cB0"]⟩ [0, 0] 5).2).filterMap
        dbCex).map (fun c => c.document_id)).dedup.length :=
  have h := C10_num_sources_invariant (fun xs => xs.dedup) (some [0, 0])
    ⟨2, [[3, 0], [1, 0]], ["cA1", "cB0"]⟩ 5 dbCex (some "ans")
    (fun xs => ⟨xs.nodup_dedup, fun a => List.mem_dedup⟩)
  ⟨h.1, h.2.2.2 [0, 0] rfl (by decide) (by decide)⟩

/-- **C8 (amended).** In the normal branch, `sources` is a duplicate-free
list with exactly the distinct document ids of the contributing chunks as
members — equivalently a permutation of that distinct set — but its order
is whatever `list(set(...))` produces, which is not specified. -/
theorem C8_sources_distinct_set (setOrder : List String → List String)
    (q : Vec) (s : FAISSState) (k : Nat) (db : String → Option ChunkRec)
    (llm : Option String) (hf : admissibleSetOrder setOrder)
    (hch : ((search s q k).2).filterMap db ≠ []) :
    (answer_question setOrder (some q) s k db llm).sources.Nodup ∧
    (∀ a, a ∈ (answer_question setOrder (some q) s k db llm).sources ↔
      a ∈ (((search s q k).2).filterMap db).map (fun c => c.document_id)) ∧
    (answer_question setOrder (some q) s k db llm).sources.Perm
      ((((search s q k).2).filterMap db).map (fun c => c.document_id)).dedup := by
  have hids : (search s q k).2 ≠ [] := by
    intro h
    exact hch (by simp [h])
  have hsrc : (answer_question setOrder (some q) s k db llm).sources =
      setOrder ((((search s q k).2).filterMap db).map (fun c => c.document_id)) := by
    simp [answer_question, hids, hch]
  rw [hsrc]
  set xs := (((search s q k).2).filterMap db).map (fun c => c.document_id) with hxs
  refine ⟨(hf xs).1, (hf xs).2, ?_⟩
  refine (List.perm_ext_iff_of_nodup (hf xs).1 xs.nodup_dedup).mpr ?_
  intro a
  rw [(hf xs).2 a]
  exact List.mem_dedup.symm

/-- Witness for C8's amended statement at the concrete two-document run. -/
theorem C8_sources_distinct_set_witness :
    (answer_question (fun xs => xs.dedup) (some [0, 0])
        ⟨2, [[3, 0], [1, 0]], ["cA1", "cB0"]⟩ 5 dbCex (some "ans")).sources.Nodup ∧
    (∀ a, a ∈ (answer_question (fun xs => xs.dedup) (some [0, 0])
        ⟨2, [[3, 0], [1, 0]], ["cA1", "cB0"]⟩ 5 dbCex (some "ans")).sources ↔
      a ∈ (((search ⟨2, [[3, 0], [1, 0]], ["cA1", "cB0"]⟩ [0, 0] 5).2).filterMap
        dbCex).map (fun c => c.document_id)) ∧
    (answer_question (fun xs => xs.dedup) (some [0, 0])
        ⟨2, [[3, 0], [1, 0]], ["cA1", "cB0"]⟩ 5 dbCex (some "ans")).sources.Perm
      ((((search ⟨2, [[3, 0], [1, 0]], ["cA1", "cB0"]⟩ [0, 0] 5).2).filterMap
        dbCex).map (fun c => c.document_id)).dedup :=
  C8_sources_distinct_set (fun xs => xs.dedup) [0, 0]
    ⟨2, [[3, 0], [1, 0]], ["cA1", "cB0"]⟩ 5 dbCex (some "ans")
    (fun xs => ⟨xs.nodup_dedup, fun a => List.mem_dedup⟩) (by decide)

/-- **C8 (counterexample).** An admissible `list(set(...))` order exists
under which the response's `sources` is not the distinct document ids in
first-appearance-after-sorting order: retrieval returns docB's chunk
before docA's, so first-occurrence deduplication (one order CPython can
produce) yields `["docB", "docA"]`, while the spec's order is
`["docA", "docB"]`. -/
theorem C8_sources_order_counterexample :
    admissibleSetOrder (fun xs => xs.dedup) ∧
    (answer_question (fun xs => xs.dedup) (some [0, 0])
        ⟨2, [[3, 0], [1, 0]], ["cA1", "cB0"]⟩ 5 dbCex (some "ans")).sources ≠
      specSourcesOrder
        (((search ⟨2, [[3, 0], [1, 0]], ["cA1", "cB0"]⟩ [0, 0] 5).2).filterMap
          dbCex) :=
  ⟨fun xs => ⟨xs.nodup_dedup, fun a => List.mem_dedup⟩, by decide⟩

end RAG
